import Mathlib

/-
Verification of the core logic of the articles website: slug generation
(`slugify`), slug uniqueness resolution (`unique_slug`), tag normalization
(`normalize_tags`), safe Markdown rendering (`render_markdown_safe`),
search-term highlighting (`highlight`), and the shared listing/pagination
contract of the article blueprints.

The relational store is modelled as a `List Article`; machine details of the
web framework are out of scope.  Python regular expressions and string
operations are embedded as explicit functions over `List Char`.
-/

/-- An article record as declared by the SQLAlchemy model in
`articles_website/models.py`: `id`, `title`, `body`, `tags`, `slug`.
The model declares no `cover_image` column (see `articleModelColumns`). -/
structure Article where
  id : Nat
  title : String
  body : String
  tags : String
  slug : String
deriving DecidableEq, Repr

/-- Column names of the `Article` model in `articles_website/models.py`. -/
def articleModelColumns : List String := ["id", "title", "body", "tags", "slug"]

/-- Fields assigned on the new `Article` by the admin `create` view
(`blueprints/admin.py`): title, body, tags, cover_image and then slug. -/
def adminCreateAssignedFields : List String :=
  ["title", "body", "tags", "cover_image", "slug"]

/-- Fields assigned on the fetched `Article` by the admin `edit` view
(`blueprints/admin.py`). -/
def adminEditAssignedFields : List String :=
  ["title", "tags", "body", "cover_image", "slug"]

/-- The column added to the `article` table by migration
`migrations/versions/9b1a_add_cover_image_to_article.py`. -/
def migrationCoverImageColumn : String := "cover_image"

/-- ASCII whitespace in the sense of Python's `str`-mode `\s` and `str.strip()`:
space, tab, newline, carriage return, vertical tab, form feed and the
separator controls U+001C..U+001F.  (Non-ASCII whitespace never reaches the
places where this predicate is used, because `slugify` drops non-ASCII first.) -/
def isPySpace (c : Char) : Bool :=
  c.toNat = 32 || c.toNat = 9 || c.toNat = 10 || c.toNat = 13 ||
  c.toNat = 11 || c.toNat = 12 || (28 ≤ c.toNat && c.toNat ≤ 31)

/-- ASCII word characters in the sense of Python's `\w`: letters, digits and
underscore. -/
def isPyWord (c : Char) : Bool := c.isAlphanum || c = '_'

/-- The `normalize("NFKD", text).encode("ascii", "ignore").decode("ascii")`
step of `slugify`.  NFKD leaves ASCII code points unchanged and the
`ascii`/`ignore` codec drops every code point above 0x7F.  The unicodedata
decomposition table is external to the repository; we model only its
ASCII-stability (identity below 0x80) and treat code points ≥ 0x80 as
dropped — their possible ASCII decomposition residue is not modelled.  Every
concrete input used in this development is pure ASCII, where the model is
exact. -/
def asciiFold (l : List Char) : List Char := l.filter (fun c => c.toNat ≤ 127)

/-- The character class kept by `re.sub(r"[^\w\s-]", "", text)`. -/
def keepChar (c : Char) : Bool := isPyWord c || isPySpace c || c = '-'

/-- Python `str.strip()`: drop leading and trailing whitespace. -/
def stripL (l : List Char) : List Char :=
  ((l.dropWhile isPySpace).reverse.dropWhile isPySpace).reverse

/-- Python `str.lower()`, restricted to the ASCII mapping A–Z → a–z (the only
case mapping exercised here; full Unicode case mapping is the library's). -/
def lowerL (l : List Char) : List Char := l.map Char.toLower

/-- A character matched by the run class `[-\s]` of
`re.sub(r"[-\s]+", "-", text)`. -/
def isRunChar (c : Char) : Bool := isPySpace c || c = '-'

/-- `re.sub(r"[-\s]+", "-", text)`: replace every maximal run of whitespace
and hyphens by a single hyphen.  The boolean records whether the previous
character belonged to a run. -/
def collapseRuns : Bool → List Char → List Char
  | _, [] => []
  | inRun, c :: cs =>
    if isRunChar c then
      (if inRun then [] else ['-']) ++ collapseRuns true cs
    else
      c :: collapseRuns false cs

/-- Characters of `slugify`'s intermediate text after the character filter
`re.sub(r"[^\w\s-]", "", ...)`. -/
def slugFiltered (title : String) : List Char :=
  (asciiFold title.toList).filter keepChar

/-- Characters of `slugify`'s intermediate text after `.strip()`. -/
def slugStripped (title : String) : List Char := stripL (slugFiltered title)

/-- `slugify` from `articles_website/helpers.py`: NFKD-to-ASCII fold, drop
characters outside `[\w\s-]`, strip whitespace, lowercase, collapse
whitespace/hyphen runs to single hyphens, and fall back to `"post"` when the
result is empty. -/
def slugify (title : String) : String :=
  let t := collapseRuns false (lowerL (slugStripped title))
  if t = [] then "post" else String.mk t

/-- Decimal digit characters of `n` (the rendering used by the f-string
`f"{base}-{n}"`). -/
def decimalRepr (n : Nat) : List Char :=
  if _h : n < 10 then [Nat.digitChar n]
  else decimalRepr (n / 10) ++ [Nat.digitChar (n % 10)]
decreasing_by exact Nat.div_lt_self (by omega) (by omega)

/-- Decimal string of `n`. -/
def mkDec (n : Nat) : String := String.mk (decimalRepr n)

/-- Truthiness of the `existing_id` argument of `unique_slug` (Python's
`if existing_id:` is false for both `None` and `0`). -/
def existingIdTruthy : Option Nat → Bool
  | none => false
  | some i => i != 0

/-- The conflict probe of `unique_slug`: does the store hold an article with
this slug, the article identified by a truthy `existing_id` excluded?
(`Article.query.filter_by(slug=slug)`, then `.filter(Article.id != existing_id)`
when `existing_id` is truthy, tested for non-emptiness.) -/
def slugConflict (store : List Article) (eid : Option Nat) (slug : String) : Bool :=
  store.any (fun a =>
    a.slug == slug && (if existingIdTruthy eid then a.id != eid.getD 0 else true))

/-- The probe loop of `unique_slug`: starting from candidate `slug` and
counter `n`, return the first candidate with no conflict; subsequent
candidates are `base-n`, `base-(n+1)`, ….  The loop in the source is
unbounded; the explicit fuel is the modelling of its termination, and
`uniqueSlugLoop_total` below shows fuel `store.length + 2` never runs out. -/
def uniqueSlugLoop (store : List Article) (eid : Option Nat) (base : String) :
    Nat → String → Nat → Option String
  | 0, _, _ => none
  | fuel + 1, slug, n =>
    if slugConflict store eid slug then
      uniqueSlugLoop store eid base fuel (base ++ "-" ++ mkDec n) (n + 1)
    else some slug

/-- `unique_slug` from `articles_website/helpers.py`: probe `slugify title`,
then `base-2`, `base-3`, … and return the first slug free in the store
(excluding the article `existing_id`, when truthy). -/
def unique_slug (store : List Article) (title : String) (eid : Option Nat) : String :=
  (uniqueSlugLoop store eid (slugify title) (store.length + 2) (slugify title) 2).getD
    (slugify title)

/-- The list of candidates probed by `uniqueSlugLoop` with the given fuel,
starting candidate and counter. -/
def candList (base : String) : Nat → String → Nat → List String
  | 0, _, _ => []
  | fuel + 1, slug, n => slug :: candList base fuel (base ++ "-" ++ mkDec n) (n + 1)

/-- Python `str.split(',')` on a character list: split at every comma,
keeping empty pieces. -/
def splitOnComma : List Char → List (List Char)
  | [] => [[]]
  | c :: cs =>
    if c = ',' then [] :: splitOnComma cs
    else
      match splitOnComma cs with
      | [] => [[c]]
      | p :: ps => (c :: p) :: ps

/-- Per-piece processing of `normalize_tags`: `raw.strip().lower()`. -/
def procPiece (r : List Char) : List Char := lowerL (stripL r)

/-- The body of `normalize_tags`'s loop: skip the piece when it is empty or
already seen, otherwise append it (the `seen` set is exactly the set of
elements of the accumulated result). -/
def addPiece (acc : List (List Char)) (p : List Char) : List (List Char) :=
  if p = [] || acc.contains p then acc else acc ++ [p]

/-- Python `", ".join(...)` on character lists. -/
def joinCS : List (List Char) → List Char
  | [] => []
  | [p] => p
  | p :: q :: ps => p ++ ',' :: ' ' :: joinCS (q :: ps)

/-- `normalize_tags` from `articles_website/helpers.py`: empty input maps to
the empty string; otherwise split on commas, strip and lowercase each piece,
drop empty pieces and duplicates (first occurrence wins), and join with
`", "`. -/
def normalize_tags (tags : String) : String :=
  if tags = "" then ""
  else String.mk (joinCS (((splitOnComma tags.toList).map procPiece).foldl addPiece []))

/-- A token of the sanitizer's view of an HTML document: character data, an
opening tag with its attributes, or a closing tag. -/
inductive HtmlTok where
  | text (s : String)
  | openTag (nm : String) (attrs : List (String × String))
  | closeTag (nm : String)
deriving DecidableEq, Repr

/-- `bleach.sanitizer.ALLOWED_TAGS`, the library default allowlist referenced
by `helpers.py`. -/
def bleachDefaultAllowedTags : List String :=
  ["a", "abbr", "acronym", "b", "blockquote", "code", "em", "i", "li", "ol",
   "strong", "ul"]

/-- `_ALLOWED_TAGS` from `articles_website/helpers.py`: the bleach defaults
together with the explicitly listed extra tags (membership is what matters;
the Python value is a set). -/
def allowedTags : List String :=
  bleachDefaultAllowedTags ++
    ["p", "pre", "code", "h2", "h3", "div", "span", "ul", "ol", "li",
     "blockquote", "hr", "br", "a", "strong", "em"]

/-- `_ALLOWED_ATTRS` from `articles_website/helpers.py`: bleach's default
attribute map (`abbr`/`acronym` may carry `title`, and `a` — overridden
below) merged with the explicit per-tag entries. -/
def allowedAttrs (tag : String) : List String :=
  if tag = "a" then ["href", "title", "rel", "target"]
  else if tag = "div" then ["class"]
  else if tag = "span" then ["class"]
  else if tag = "code" then ["class"]
  else if tag = "pre" then ["class"]
  else if tag = "h2" then ["id", "class"]
  else if tag = "h3" then ["id", "class"]
  else if tag = "abbr" then ["title"]
  else if tag = "acronym" then ["title"]
  else []

/-- Modelled from the spec: the tag/attribute filtering pass of
`bleach.clean(..., strip=True)` (the bleach library is external to the
repository).  A tag outside the allowlist is removed from the output, not
merely escaped; text between stripped tags is preserved; attributes of kept
tags are filtered per tag against the attribute allowlist. -/
def bleachClean (toks : List HtmlTok) : List HtmlTok :=
  toks.filterMap fun t =>
    match t with
    | .text s => some (.text s)
    | .openTag nm attrs =>
      if nm ∈ allowedTags then
        some (.openTag nm (attrs.filter (fun kv => kv.1 ∈ allowedAttrs nm)))
      else none
    | .closeTag nm =>
      if nm ∈ allowedTags then some (.closeTag nm) else none

/-- Text accumulated by the Markdown tokenizer, flushed as a text token when
non-empty. -/
def flushText (acc : List Char) : List HtmlTok :=
  if acc = [] then [] else [.text (String.mk acc)]

/-- Modelled from the spec: the fragment of the Markdown-to-HTML conversion
(the markdown library is external to the repository) exercised by the safe
rendering scenario: raw inline HTML tags pass through to the HTML token
stream, `**`-delimited text renders as `<strong>` (modelled as a toggle),
and remaining characters are character data. -/
def mdParseInline : Nat → Bool → List Char → List Char → List HtmlTok
  | 0, _, acc, rest => flushText (acc ++ rest)
  | _ + 1, _, acc, [] => flushText acc
  | fuel + 1, strongOpen, acc, c :: cs =>
    if c = '<' then
      let inside := cs.takeWhile (fun d => d ≠ '>')
      let rest := (cs.dropWhile (fun d => d ≠ '>')).drop 1
      let tok :=
        if inside.head? = some '/' then HtmlTok.closeTag (String.mk (inside.drop 1))
        else HtmlTok.openTag (String.mk inside) []
      flushText acc ++ [tok] ++ mdParseInline fuel strongOpen [] rest
    else if c = '*' && cs.head? = some '*' then
      flushText acc ++
        [if strongOpen then HtmlTok.closeTag "strong" else HtmlTok.openTag "strong" []] ++
        mdParseInline fuel (!strongOpen) [] (cs.drop 1)
    else
      mdParseInline fuel strongOpen (acc ++ [c]) cs

/-- Modelled from the spec: `markdown.markdown` on a single inline-level
paragraph — the inline token stream wrapped in a paragraph. -/
def mdRender (md : String) : List HtmlTok :=
  [HtmlTok.openTag "p" []] ++
    mdParseInline md.toList.length false [] md.toList ++
    [HtmlTok.closeTag "p"]

/-- Serialize one HTML token back to text. -/
def serializeTok : HtmlTok → String
  | .text s => s
  | .openTag nm attrs =>
    "<" ++ nm ++
      String.join (attrs.map (fun kv => " " ++ kv.1 ++ "=\x22" ++ kv.2 ++ "\x22")) ++ ">"
  | .closeTag nm => "</" ++ nm ++ ">"

/-- Serialize an HTML token stream. -/
def serializeToks (ts : List HtmlTok) : String := String.join (ts.map serializeTok)

/-- `render_markdown_safe` from `articles_website/helpers.py`: convert
Markdown to HTML, then sanitize against the explicit tag/attribute allowlists
with `strip=True`. -/
def render_markdown_safe (text : String) : String :=
  serializeToks (bleachClean (mdRender text))

/-- Modelled from the spec: `markupsafe.escape` (external library) — replace
`&`, `<`, `>`, `'`, `"` by their HTML entities. -/
def pyEscapeChar (c : Char) : List Char :=
  if c = '&' then "&amp;".toList
  else if c = '<' then "&lt;".toList
  else if c = '>' then "&gt;".toList
  else if c.toNat = 39 then "&#39;".toList
  else if c.toNat = 34 then "&#34;".toList
  else [c]

/-- `escape(text)` as a string map. -/
def pyEscape (s : String) : String :=
  String.mk ((s.toList.map pyEscapeChar).flatten)

/-- Split a character list at whitespace (Python
`re.split(r"\s+", q.strip())` followed by dropping falsy pieces is equivalent
to whitespace tokenization with empty pieces dropped). -/
def splitWs : List Char → List (List Char)
  | [] => [[]]
  | c :: cs =>
    if isPySpace c then [] :: splitWs cs
    else
      match splitWs cs with
      | [] => [[c]]
      | p :: ps => (c :: p) :: ps

/-- The non-empty whitespace-separated words of the query string. -/
def wordsOf (q : String) : List (List Char) :=
  (splitWs q.toList).filter (fun w => w ≠ [])

/-- Does word `w` match a prefix of `s` case-insensitively (the semantics of
one `re.escape`d alternation branch under `re.IGNORECASE`)? -/
def eqCIPrefix (w s : List Char) : Bool :=
  decide (w.length ≤ s.length) &&
    ((s.take w.length).map Char.toLower == w.map Char.toLower)

/-- Try the alternation branches in order at the current position, returning
the matched source-text span of the first branch that matches. -/
def matchAt (ws : List (List Char)) (s : List Char) : Option (List Char) :=
  ws.findSome? fun w => if eqCIPrefix w s then some (s.take w.length) else none

/-- The characters of the opening highlight marker `<mark>`. -/
def markO : List Char := ['<', 'm', 'a', 'r', 'k', '>']

/-- The characters of the closing highlight marker `</mark>`. -/
def markC : List Char := ['<', '/', 'm', 'a', 'r', 'k', '>']

/-- The scan of `pattern.sub(_repl, str(escaped))`: find the leftmost match of
any query word, wrap it in `<mark>…</mark>`, and continue after it; characters
outside matches are copied unchanged.  Fuel `s.length` is always sufficient
because every match is non-empty (`highlight` is only applied with that
fuel). -/
def highlightLoop (ws : List (List Char)) : Nat → List Char → List Char
  | _, [] => []
  | 0, s => s
  | fuel + 1, c :: rest =>
    match matchAt ws (c :: rest) with
    | some m =>
      markO ++ m ++ markC ++ highlightLoop ws fuel ((c :: rest).drop m.length)
    | none => c :: highlightLoop ws fuel rest

/-- `highlight` from `articles_website/helpers.py`: escape the source text,
then wrap case-insensitive matches of the query's whitespace-separated words
in `<mark>` tags.  Empty text or query, or a whitespace-only query, yield the
escaped text unchanged. -/
def highlight (text query : String) : String :=
  if text = "" || query = "" then pyEscape text
  else if wordsOf query = [] then pyEscape text
  else
    String.mk
      (highlightLoop (wordsOf query) (pyEscape text).toList.length (pyEscape text).toList)

/-- Remove every occurrence of the inserted marker tags `<mark>` and
`</mark>` from a character list (used to state that the rest of `highlight`'s
output is exactly the escaped source text). -/
def removeMarks : List Char → List Char
  | [] => []
  | c :: cs =>
    if markO.isPrefixOf (c :: cs) then removeMarks ((c :: cs).drop markO.length)
    else if markC.isPrefixOf (c :: cs) then removeMarks ((c :: cs).drop markC.length)
    else c :: removeMarks cs
termination_by l => l.length
decreasing_by
  all_goals simp [markO, markC, List.length_drop, List.length_cons]
  all_goals omega

/-- The filter modes shared by the listing endpoints in
`blueprints/main.py`: no filter (`/articles`), a tag (`/tags/<tag>`), or a
query string (`/search`). -/
inductive Filt where
  | all : Filt
  | tag (t : String) : Filt
  | query (q : String) : Filt

/-- Case-insensitive character comparison (the semantics of SQL `ILIKE` on
ASCII, as produced by SQLAlchemy's `.ilike`). -/
def eqCI (p c : Char) : Bool := p.toLower == c.toLower

/-- SQL `LIKE` pattern matching, case-insensitive: `%` matches any sequence,
`_` matches any single character, and other pattern characters match
case-insensitively.  The fuel decreases on every step; since every step also
shrinks `pattern.length + s.length`, fuel `pattern.length + s.length` never
runs out (`likeMatchesF_fuel` below), and `likeMatches` runs with exactly
that fuel. -/
def likeMatchesF : Nat → List Char → List Char → Bool
  | 0, p, s => p.isEmpty && s.isEmpty
  | _ + 1, [], s => s.isEmpty
  | fuel + 1, p :: ps, s =>
    if p = '%' then
      likeMatchesF fuel ps s ||
        (match s with
         | [] => false
         | _ :: s' => likeMatchesF fuel (p :: ps) s')
    else
      match s with
      | [] => false
      | c :: s' => (p = '_' || eqCI p c) && likeMatchesF fuel ps s'

/-- `LIKE` matching of a pattern against a string. -/
def likeMatches (pat s : List Char) : Bool :=
  likeMatchesF (pat.length + s.length) pat s

/-- `column.ilike(f"%{pat}%")`: the field matches the pattern `%pat%`. -/
def ilikeContains (field pat : String) : Bool :=
  likeMatches ('%' :: (pat.toList ++ ['%'])) field.toList

/-- The row filter applied by each listing endpoint (`blueprints/main.py`):
`/articles` takes all rows, `/tags/<tag>` filters
`Article.tags.ilike(f"%{tag}%")`, and `/search` filters
`title.ilike(f"%{q}%") OR body.ilike(f"%{q}%")`. -/
def matchesFilter : Filt → Article → Bool
  | .all, _ => true
  | .tag t, a => ilikeContains a.tags t
  | .query q, a => ilikeContains a.title q || ilikeContains a.body q

/-- Insert an article into a list kept in descending-id order. -/
def insertDesc (a : Article) : List Article → List Article
  | [] => [a]
  | b :: bs => if b.id ≤ a.id then a :: b :: bs else b :: insertDesc a bs

/-- `order_by(Article.id.desc())`: the matching rows in descending-id order
(modelled as an insertion sort). -/
def sortDesc : List Article → List Article
  | [] => []
  | a :: as => insertDesc a (sortDesc as)

/-- The data every listing endpoint hands to its template: the page slice,
the total number of matching rows, and the two pagination flags. -/
structure PageResult where
  items : List Article
  total : Nat
  hasPrev : Bool
  hasNext : Bool
deriving DecidableEq, Repr

/-- The shared listing/pagination computation of `blueprints/main.py`
(`articles`, `by_tag`, `search`): order the matching rows by descending id,
`total = query.count()`, `items = query.offset((page-1)*per_page).limit(per_page)`,
`has_prev = page > 1`, `has_next = page * per_page < total`. -/
def list_articles (store : List Article) (f : Filt) (page perPage : Nat) : PageResult :=
  let q := sortDesc (store.filter (matchesFilter f))
  { items := (q.drop ((page - 1) * perPage)).take perPage
    total := q.length
    hasPrev := decide (1 < page)
    hasNext := decide (page * perPage < q.length) }

/-- Stated from the spec's words, for comparison with the code's `ilike`
semantics: the tags field contains the given string as a case-insensitive
substring. -/
def containsCI (field sub : String) : Bool :=
  decide ((sub.toList.map Char.toLower) <:+: (field.toList.map Char.toLower))

/-- A reachable store state for the slug-stability counterexample: the
article was created as the second `"Hello World"` (slug `hello-world-2`) and
the first one has since been deleted. -/
def articleHW2 : Article :=
  { id := 1, title := "Hello World", body := "b", tags := "", slug := "hello-world-2" }

/-- An article holding its base slug, for the slug-stability witness. -/
def articleHW : Article :=
  { id := 1, title := "Hello World", body := "b", tags := "", slug := "hello-world" }

/-- A store of 23 articles for the pagination scenario. -/
def store23 : List Article :=
  (List.range 23).map (fun i =>
    { id := i + 1, title := "t", body := "b", tags := "", slug := mkDec (i + 1) })

/-- An article tagged `"python, flask"`. -/
def articlePython : Article :=
  { id := 1, title := "t", body := "b", tags := "python, flask", slug := "s1" }

/-- An article tagged `"go"`. -/
def articleGo : Article :=
  { id := 2, title := "t", body := "b", tags := "go", slug := "s2" }

/-! ### Decimal representation -/

theorem decimalRepr_ne_nil (n : Nat) : decimalRepr n ≠ [] := by
  unfold decimalRepr
  split
  · simp
  · simp

theorem decimalRepr_length_pos (n : Nat) : 0 < (decimalRepr n).length :=
  List.length_pos.2 (decimalRepr_ne_nil n)

theorem digitChar_inj {a b : Nat} (ha : a < 10) (hb : b < 10)
    (h : Nat.digitChar a = Nat.digitChar b) : a = b := by
  interval_cases a <;> interval_cases b <;> revert h <;> decide

theorem decimalRepr_lt {n : Nat} (h : n < 10) : decimalRepr n = [Nat.digitChar n] := by
  rw [decimalRepr]
  exact dif_pos h

theorem decimalRepr_ge {n : Nat} (h : ¬n < 10) :
    decimalRepr n = decimalRepr (n / 10) ++ [Nat.digitChar (n % 10)] := by
  conv_lhs => rw [decimalRepr]
  exact dif_neg h

theorem decimalRepr_inj : ∀ a b : Nat, decimalRepr a = decimalRepr b → a = b := by
  intro a
  induction a using Nat.strong_induction_on with
  | _ a ih =>
    intro b h
    by_cases ha : a < 10 <;> by_cases hb : b < 10
    · rw [decimalRepr_lt ha, decimalRepr_lt hb] at h
      exact digitChar_inj ha hb (List.cons.injEq .. ▸ h).1
    · rw [decimalRepr_lt ha, decimalRepr_ge hb] at h
      cases hE : decimalRepr (b / 10) with
      | nil => exact absurd hE (decimalRepr_ne_nil _)
      | cons x xs => rw [hE] at h; simp at h
    · rw [decimalRepr_ge ha, decimalRepr_lt hb] at h
      cases hE : decimalRepr (a / 10) with
      | nil => exact absurd hE (decimalRepr_ne_nil _)
      | cons x xs => rw [hE] at h; simp at h
    · rw [decimalRepr_ge ha, decimalRepr_ge hb] at h
      have h' := congrArg List.reverse h
      simp at h'
      have hdiv : a / 10 = b / 10 :=
        ih (a / 10) (Nat.div_lt_self (by omega) (by omega)) (b / 10) h'.2
      have hmod : a % 10 = b % 10 :=
        digitChar_inj (Nat.mod_lt _ (by omega)) (Nat.mod_lt _ (by omega)) h'.1
      omega

theorem mkDec_inj {a b : Nat} (h : mkDec a = mkDec b) : a = b :=
  decimalRepr_inj a b (congrArg String.data h)

/-! ### Candidate lists of the uniqueness resolver -/

theorem cand_data (base : String) (k : Nat) :
    (base ++ "-" ++ mkDec k).data = base.data ++ '-' :: decimalRepr k := by
  rw [String.data_append, String.data_append, List.append_assoc]
  rfl

theorem cand_ne_base (base : String) (k : Nat) : base ++ "-" ++ mkDec k ≠ base := by
  intro h
  have hd := congrArg String.data h
  rw [cand_data] at hd
  have := congrArg List.length hd
  simp at this

theorem cand_inj (base : String) : Function.Injective (fun k => base ++ "-" ++ mkDec k) := by
  intro a b h
  simp only at h
  have hd := congrArg String.data h
  rw [cand_data, cand_data] at hd
  have := List.append_cancel_left hd
  exact decimalRepr_inj a b (by simpa using this)

theorem candList_eq (base : String) :
    ∀ (fuel : Nat) (s : String) (n : Nat),
      candList base (fuel + 1) s n =
        s :: (List.range' n fuel).map (fun k => base ++ "-" ++ mkDec k) := by
  intro fuel
  induction fuel with
  | zero => intro s n; simp [candList]
  | succ fuel ih =>
    intro s n
    rw [candList, ih, List.range'_succ]
    simp

theorem candList_length (base : String) :
    ∀ (fuel : Nat) (s : String) (n : Nat), (candList base fuel s n).length = fuel := by
  intro fuel
  induction fuel with
  | zero => intro s n; rfl
  | succ fuel ih => intro s n; rw [candList]; simp [ih]

theorem candList_nodup (base : String) (fuel : Nat) (n : Nat) :
    (candList base fuel base n).Nodup := by
  cases fuel with
  | zero => simp [candList]
  | succ fuel =>
    rw [candList_eq]
    refine List.nodup_cons.2 ⟨?_, ?_⟩
    · intro hmem
      obtain ⟨k, _, hk⟩ := List.mem_map.1 hmem
      exact cand_ne_base base k hk
    · exact (List.nodup_range' n fuel).map (cand_inj base)

/-! ### The probe loop -/

theorem slugConflict_mem {store : List Article} {eid : Option Nat} {c : String}
    (h : slugConflict store eid c = true) : c ∈ store.map Article.slug := by
  rw [slugConflict, List.any_eq_true] at h
  obtain ⟨a, ha, hc⟩ := h
  rw [Bool.and_eq_true, beq_iff_eq] at hc
  exact List.mem_map.2 ⟨a, ha, hc.1⟩

theorem uniqueSlugLoop_none {store : List Article} {eid : Option Nat} {base : String} :
    ∀ (fuel : Nat) (s : String) (n : Nat),
      uniqueSlugLoop store eid base fuel s n = none →
      ∀ c ∈ candList base fuel s n, slugConflict store eid c = true := by
  intro fuel
  induction fuel with
  | zero => intro s n _ c hc; simp [candList] at hc
  | succ fuel ih =>
    intro s n h c hc
    rw [uniqueSlugLoop] at h
    rw [candList] at hc
    by_cases hs : slugConflict store eid s = true
    · rw [if_pos hs] at h
      rcases List.mem_cons.1 hc with hc | hc
      · exact hc ▸ hs
      · exact ih _ _ h c hc
    · rw [if_neg hs] at h
      exact absurd h (by simp)

theorem nodup_subset_length {l l' : List String} (hn : l.Nodup)
    (hs : ∀ x ∈ l, x ∈ l') : l.length ≤ l'.length := by
  calc l.length = l.toFinset.card := (List.toFinset_card_of_nodup hn).symm
    _ ≤ l'.toFinset.card :=
        Finset.card_le_card (fun x hx => List.mem_toFinset.2 (hs x (List.mem_toFinset.1 hx)))
    _ ≤ l'.length := List.toFinset_card_le l'

theorem uniqueSlugLoop_total (store : List Article) (eid : Option Nat) (base : String) :
    ∃ s, uniqueSlugLoop store eid base (store.length + 2) base 2 = some s := by
  cases h : uniqueSlugLoop store eid base (store.length + 2) base 2 with
  | some s => exact ⟨s, rfl⟩
  | none =>
    exfalso
    have hall := uniqueSlugLoop_none _ _ _ h
    have hsub : ∀ c ∈ candList base (store.length + 2) base 2, c ∈ store.map Article.slug :=
      fun c hc => slugConflict_mem (hall c hc)
    have hlen := nodup_subset_length (candList_nodup base (store.length + 2) 2) hsub
    rw [candList_length] at hlen
    simp at hlen

theorem uniqueSlugLoop_some {store : List Article} {eid : Option Nat} {base : String} :
    ∀ (fuel : Nat) (s0 : String) (n : Nat) (s : String),
      uniqueSlugLoop store eid base fuel s0 n = some s →
      slugConflict store eid s = false ∧ s ∈ candList base fuel s0 n ∧
        ((candList base fuel s0 n).takeWhile (fun c => c != s)).all
          (fun c => slugConflict store eid c) = true := by
  intro fuel
  induction fuel with
  | zero => intro s0 n s h; simp [uniqueSlugLoop] at h
  | succ fuel ih =>
    intro s0 n s h
    rw [uniqueSlugLoop] at h
    by_cases hs : slugConflict store eid s0 = true
    · rw [if_pos hs] at h
      obtain ⟨h1, h2, h3⟩ := ih _ _ _ h
      have hne : s0 ≠ s := fun he => by rw [he, h1] at hs; exact Bool.false_ne_true hs
      refine ⟨h1, ?_, ?_⟩
      · rw [candList]; exact List.mem_cons_of_mem _ h2
      · rw [candList, List.takeWhile_cons]
        have : (s0 != s) = true := bne_iff_ne.2 hne
        rw [this]
        simpa [hs] using h3
    · rw [if_neg hs] at h
      have hss : s0 = s := by simpa using h
      subst hss
      refine ⟨by simpa using hs, ?_, ?_⟩
      · rw [candList]
        exact List.mem_cons_self _ _
      · rw [candList, List.takeWhile_cons]
        simp

theorem conflict_none_of_mem {store : List Article} {c : String}
    (h : c ∈ store.map Article.slug) : slugConflict store none c = true := by
  obtain ⟨a, ha, hslug⟩ := List.mem_map.1 h
  rw [slugConflict, List.any_eq_true]
  exact ⟨a, ha, by simp [existingIdTruthy, hslug]⟩

theorem unique_slug_eq_of_loop {store : List Article} {eid : Option Nat} {title s : String}
    (h : uniqueSlugLoop store eid (slugify title) (store.length + 2) (slugify title) 2 = some s) :
    unique_slug store title eid = s := by
  unfold unique_slug
  rw [h]
  rfl

theorem unique_slug_no_base_conflict (store : List Article) (eid : Option Nat) (title : String)
    (h : slugConflict store eid (slugify title) = false) :
    unique_slug store title eid = slugify title := by
  unfold unique_slug
  show (uniqueSlugLoop store eid (slugify title) (store.length + 1 + 1) (slugify title) 2).getD _ = _
  rw [uniqueSlugLoop]
  simp [h]

/-- C2.  The admin create and edit views assign a `cover_image` value and the
migration adds the column, but the `Article` model in `models.py` declares no
`cover_image` column, so the stored record has nowhere to carry it (SQLAlchemy
rejects the constructor keyword at the failing input). -/
theorem C2_cover_image_missing_from_model :
    migrationCoverImageColumn ∈ adminCreateAssignedFields ∧
      migrationCoverImageColumn ∈ adminEditAssignedFields ∧
      migrationCoverImageColumn ∉ articleModelColumns := by decide

/-- C4.  For every title and store, `unique_slug title None` returns a slug
held by no existing article, and it returns exactly `slugify title` whenever
that base slug is free. -/
theorem C4_unique_slug_returns_fresh_slug (store : List Article) (title : String) :
    unique_slug store title none ∉ store.map Article.slug ∧
      (slugify title ∉ store.map Article.slug →
        unique_slug store title none = slugify title) := by
  constructor
  · obtain ⟨s, hloop⟩ := uniqueSlugLoop_total store none (slugify title)
    obtain ⟨hfree, -, -⟩ := uniqueSlugLoop_some _ _ _ _ hloop
    rw [unique_slug_eq_of_loop hloop]
    intro hmem
    rw [conflict_none_of_mem hmem] at hfree
    exact Bool.true_eq_false ▸ hfree
  · intro hnot
    refine unique_slug_no_base_conflict store none title ?_
    cases hc : slugConflict store none (slugify title) with
    | false => rfl
    | true => exact absurd (slugConflict_mem hc) hnot

/-- Witness for C4 at a concrete store and title. -/
theorem C4_witness : unique_slug [articleGo] "Hello World" none = slugify "Hello World" :=
  (C4_unique_slug_returns_fresh_slug [articleGo] "Hello World").2 (by decide)

/-- C5.  `unique_slug` terminates within `store.length + 2` probes: the
candidates are the base slug followed by `base-2`, `base-3`, … in strictly
increasing suffix order, no candidate is probed twice, the loop returns the
first conflict-free candidate, and that candidate is `unique_slug`'s result. -/
theorem C5_unique_slug_terminates (store : List Article) (title : String) (eid : Option Nat) :
    ∃ s,
      uniqueSlugLoop store eid (slugify title) (store.length + 2) (slugify title) 2 = some s ∧
      unique_slug store title eid = s ∧
      slugConflict store eid s = false ∧
      candList (slugify title) (store.length + 2) (slugify title) 2 =
        slugify title ::
          (List.range' 2 (store.length + 1)).map (fun k => slugify title ++ "-" ++ mkDec k) ∧
      (candList (slugify title) (store.length + 2) (slugify title) 2).Nodup ∧
      ((candList (slugify title) (store.length + 2) (slugify title) 2).takeWhile
          (fun c => c != s)).all (fun c => slugConflict store eid c) = true := by
  obtain ⟨s, hloop⟩ := uniqueSlugLoop_total store eid (slugify title)
  obtain ⟨hfree, -, hfirst⟩ := uniqueSlugLoop_some _ _ _ _ hloop
  exact ⟨s, hloop, unique_slug_eq_of_loop hloop, hfree,
    candList_eq (slugify title) (store.length + 1) (slugify title) 2,
    candList_nodup (slugify title) (store.length + 2) 2, hfirst⟩

/-- C1 fails as stated: an article that holds a suffixed slug (here
`hello-world-2`, a state reached by creating two articles titled
`"Hello World"` and deleting the first) is re-slugged to the free base slug
by an edit that does not change the title. -/
theorem C1_counterexample :
    articleHW2.title = "Hello World" ∧
      unique_slug [articleHW2] articleHW2.title (some articleHW2.id) ≠ articleHW2.slug := by
  decide

/-- C1 amended.  An edit that resubmits the unchanged title preserves the
article's slug provided the article's current slug is its base slug
`slugify title` (the store's slug-uniqueness invariant supplies the side
condition that no other article holds that slug; store ids are positive). -/
theorem C1_edit_unchanged_title_preserves_slug (store : List Article) (A : Article)
    (hbase : A.slug = slugify A.title) (hid : A.id ≠ 0)
    (huniq : ∀ B ∈ store, B.slug = A.slug → B.id = A.id) :
    unique_slug store A.title (some A.id) = A.slug := by
  have hconf : slugConflict store (some A.id) (slugify A.title) = false := by
    cases hc : slugConflict store (some A.id) (slugify A.title) with
    | false => rfl
    | true =>
      exfalso
      rw [slugConflict, List.any_eq_true] at hc
      obtain ⟨a, ha, hA⟩ := hc
      rw [Bool.and_eq_true, beq_iff_eq] at hA
      have htruthy : existingIdTruthy (some A.id) = true := by
        simp [existingIdTruthy, hid]
      rw [htruthy] at hA
      have hslug : a.slug = A.slug := by rw [hA.1, ← hbase]
      have : a.id = A.id := huniq a ha hslug
      rw [if_pos rfl] at hA
      simp [this] at hA
  rw [unique_slug_no_base_conflict store (some A.id) A.title hconf, hbase]

/-- Witness for C1's amended theorem at a concrete store. -/
theorem C1_witness : unique_slug [articleHW] articleHW.title (some articleHW.id) = "hello-world" := by
  have := C1_edit_unchanged_title_preserves_slug [articleHW] articleHW
    (by decide) (by decide) (by decide)
  simpa using this

/-! ### Character classes and lowercasing -/

theorem char_eq_iff_toNat {c d : Char} : c = d ↔ c.toNat = d.toNat := by
  constructor
  · intro h; rw [h]
  · intro h
    apply Char.ext
    apply UInt32.eq_of_toBitVec_eq
    apply BitVec.eq_of_toNat_eq
    exact h

theorem char_toNat_ofNat {n : Nat} (h : n < 55296) : (Char.ofNat n).toNat = n := by
  rw [Char.ofNat, dif_pos (Or.inl h)]
  rfl

theorem toLower_cases (c : Char) :
    Char.toLower c = c ∨
      (65 ≤ c.toNat ∧ c.toNat ≤ 90 ∧ (Char.toLower c).toNat = c.toNat + 32) := by
  rw [Char.toLower]
  by_cases h : Char.toNat c ≥ 65 ∧ Char.toNat c ≤ 90
  · right
    refine ⟨h.1, h.2, ?_⟩
    rw [if_pos h]
    exact char_toNat_ofNat (by omega)
  · left
    rw [if_neg h]

theorem isPySpace_iff (c : Char) :
    isPySpace c = true ↔
      (c.toNat = 32 ∨ c.toNat = 9 ∨ c.toNat = 10 ∨ c.toNat = 13 ∨ c.toNat = 11 ∨
        c.toNat = 12 ∨ (28 ≤ c.toNat ∧ c.toNat ≤ 31)) := by
  simp [isPySpace]
  tauto

theorem isPyWord_iff (c : Char) :
    isPyWord c = true ↔
      ((48 ≤ c.toNat ∧ c.toNat ≤ 57) ∨ (65 ≤ c.toNat ∧ c.toNat ≤ 90) ∨
        (97 ≤ c.toNat ∧ c.toNat ≤ 122) ∨ c.toNat = 95) := by
  have h95 : ('_').toNat = 95 := by decide
  simp [isPyWord, Char.isAlphanum, Char.isAlpha, Char.isUpper, Char.isLower, Char.isDigit,
    UInt32.le_def, BitVec.le_def, Char.toNat, UInt32.toNat, char_eq_iff_toNat, h95]
  tauto

theorem isRunChar_iff (c : Char) :
    isRunChar c = true ↔ (isPySpace c = true ∨ c.toNat = 45) := by
  have h45 : ('-').toNat = 45 := by decide
  simp [isRunChar, char_eq_iff_toNat, h45]

theorem isPySpace_toLower (c : Char) : isPySpace (Char.toLower c) = isPySpace c := by
  rcases toLower_cases c with h | ⟨h1, h2, h3⟩
  · rw [h]
  · rw [Bool.eq_iff_iff, isPySpace_iff, isPySpace_iff, h3]
    omega

theorem isRunChar_toLower (c : Char) : isRunChar (Char.toLower c) = isRunChar c := by
  rcases toLower_cases c with h | ⟨h1, h2, h3⟩
  · rw [h]
  · rw [Bool.eq_iff_iff, isRunChar_iff, isRunChar_iff, isPySpace_iff, isPySpace_iff, h3]
    omega

theorem toLower_toLower (c : Char) : Char.toLower (Char.toLower c) = Char.toLower c := by
  rcases toLower_cases (Char.toLower c) with h | ⟨h1, h2, h3⟩
  · exact h
  · rcases toLower_cases c with h' | ⟨h1', h2', h3'⟩
    · rw [h'] at h1 h2 ⊢
      rw [h']
    · exfalso
      omega

theorem toLower_eq_comma {c : Char} (h : Char.toLower c = ',') : c = ',' := by
  rcases toLower_cases c with h' | ⟨h1, h2, h3⟩
  · rw [← h', h]
  · exfalso
    have h44 : (Char.toLower c).toNat = 44 := by rw [h]; decide
    omega

theorem hyphen_of_isRunChar_toNat {c : Char} (h : c.toNat = 45) : c = '-' := by
  rw [char_eq_iff_toNat, h]
  decide

/-! ### `dropWhile` and `strip` -/

theorem dropWhile_head_false {p : Char → Bool} {l : List Char} {c : Char}
    (h : (l.dropWhile p).head? = some c) : p c = false := by
  induction l with
  | nil => simp [List.dropWhile] at h
  | cons a t ih =>
    rw [List.dropWhile_cons] at h
    by_cases hp : p a = true
    · rw [if_pos hp] at h
      exact ih h
    · rw [if_neg hp] at h
      have hac : a = c := by simpa using h
      subst hac
      simpa using hp

theorem dropWhile_eq_self_of_head {p : Char → Bool} {l : List Char}
    (h : ∀ c, l.head? = some c → p c = false) : l.dropWhile p = l := by
  cases l with
  | nil => rfl
  | cons a t =>
    rw [List.dropWhile_cons]
    simp [h a rfl]

theorem stripL_getLast {l : List Char} {c : Char} (h : (stripL l).getLast? = some c) :
    isPySpace c = false := by
  rw [stripL, List.getLast?_reverse] at h
  exact dropWhile_head_false h

theorem stripL_head {l : List Char} {c : Char} (h : (stripL l).head? = some c) :
    isPySpace c = false := by
  rw [stripL] at h
  have hsuf : ((l.dropWhile isPySpace).reverse.dropWhile isPySpace) <:+
      (l.dropWhile isPySpace).reverse := List.dropWhile_suffix _
  have hpre : ((l.dropWhile isPySpace).reverse.dropWhile isPySpace).reverse <+:
      l.dropWhile isPySpace := by
    rw [← List.reverse_suffix]
    simpa using hsuf
  obtain ⟨t, ht⟩ := hpre
  have hhead : (l.dropWhile isPySpace).head? = some c := by
    rw [← ht, List.head?_append, h]
    rfl
  exact dropWhile_head_false hhead

theorem stripL_eq_self {l : List Char}
    (h1 : ∀ c, l.head? = some c → isPySpace c = false)
    (h2 : ∀ c, l.getLast? = some c → isPySpace c = false) : stripL l = l := by
  rw [stripL, dropWhile_eq_self_of_head h1,
    dropWhile_eq_self_of_head (fun c hc => h2 c ((List.head?_reverse l) ▸ hc))]
  exact List.reverse_reverse l

theorem stripL_idem (l : List Char) : stripL (stripL l) = stripL l :=
  stripL_eq_self (fun _ hc => stripL_head hc) (fun _ hc => stripL_getLast hc)

theorem stripL_cons_space {c : Char} (hc : isPySpace c = true) (q : List Char) :
    stripL (c :: q) = stripL q := by
  rw [stripL, stripL, List.dropWhile_cons, if_pos hc]

theorem stripL_subset (l : List Char) : stripL l ⊆ l := by
  intro c hc
  rw [stripL] at hc
  rw [List.mem_reverse] at hc
  have h1 := List.dropWhile_subset isPySpace hc
  rw [List.mem_reverse] at h1
  exact List.dropWhile_subset isPySpace h1

/-! ### Run collapsing -/

theorem mem_collapseRuns {c : Char} :
    ∀ (b : Bool) (l : List Char), c ∈ collapseRuns b l →
      c = '-' ∨ (c ∈ l ∧ isRunChar c = false) := by
  intro b l
  induction l generalizing b with
  | nil => intro h; simp [collapseRuns] at h
  | cons a t ih =>
    intro h
    rw [collapseRuns] at h
    by_cases ha : isRunChar a = true
    · rw [if_pos ha] at h
      rcases List.mem_append.1 h with h | h
      · left
        cases b with
        | true => simp at h
        | false => simpa using h
      · rcases ih true h with h | ⟨h1, h2⟩
        · left; exact h
        · right; exact ⟨List.mem_cons_of_mem _ h1, h2⟩
    · rw [if_neg ha] at h
      rcases List.mem_cons.1 h with h | h
      · right
        subst h
        exact ⟨List.mem_cons_self _ _, by simpa using ha⟩
      · rcases ih false h with h | ⟨h1, h2⟩
        · left; exact h
        · right; exact ⟨List.mem_cons_of_mem _ h1, h2⟩

theorem collapseRuns_cons_of_not_run {a : Char} (ha : isRunChar a = false) (t : List Char) :
    collapseRuns false (a :: t) = a :: collapseRuns false t := by
  rw [collapseRuns]
  simp [ha]

theorem collapseRuns_getLast {x : Char} (hx : isRunChar x = false) :
    ∀ (l : List Char) (b : Bool), l.getLast? = some x →
      (collapseRuns b l).getLast? = some x := by
  intro l
  induction l with
  | nil => intro b h; simp at h
  | cons a t ih =>
    intro b h
    cases t with
    | nil =>
      have hax : a = x := by simpa using h
      subst hax
      rw [collapseRuns]
      simp [hx, collapseRuns]
    | cons d u =>
      rw [List.getLast?_cons_cons] at h
      rw [collapseRuns]
      by_cases hA : isRunChar a = true
      · rw [if_pos hA, List.getLast?_append, ih true h]
        rfl
      · rw [if_neg hA, List.getLast?_cons, ih false h]
        rfl

/-- C3 fails as stated: `slugify` strips whitespace but never trims hyphens,
so a title whose kept characters begin and end with a hyphen produces a slug
with a leading and a trailing hyphen. -/
theorem C3_counterexample :
    slugify "-a-" = "-a-" ∧
      (slugify "-a-").toList.head? = some '-' ∧
      (slugify "-a-").toList.getLast? = some '-' := by
  decide

/-- C3 amended.  `slugify` output contains no whitespace (whitespace runs are
collapsed into hyphens after stripping), and it has no leading or trailing
hyphen provided the filtered, whitespace-stripped intermediate text does not
itself begin or end with a hyphen; leading and trailing hyphens of that
intermediate text are *not* trimmed and survive into the slug. -/
theorem C3_no_edge_hyphen_unless_stripped_text_has_one (title : String) :
    (∀ c ∈ (slugify title).toList, isPySpace c = false) ∧
      ((slugStripped title).head? ≠ some '-' → (slugStripped title).getLast? ≠ some '-' →
        (slugify title).toList.head? ≠ some '-' ∧
          (slugify title).toList.getLast? ≠ some '-') := by
  constructor
  · intro c hc
    rw [slugify] at hc
    by_cases ht : collapseRuns false (lowerL (slugStripped title)) = []
    · rw [if_pos ht] at hc
      rw [show ("post" : String).toList = ['p', 'o', 's', 't'] from rfl] at hc
      simp at hc
      rcases hc with rfl | rfl | rfl | rfl <;> decide
    · rw [if_neg ht] at hc
      rcases mem_collapseRuns _ _ hc with h | ⟨-, h2⟩
      · subst h; decide
      · cases hsp : isPySpace c with
        | false => rfl
        | true =>
          exfalso
          have : isRunChar c = true := (isRunChar_iff c).2 (Or.inl hsp)
          rw [this] at h2
          exact Bool.true_eq_false ▸ h2
  · intro hh hl
    rw [slugify]
    by_cases ht : collapseRuns false (lowerL (slugStripped title)) = []
    · rw [if_pos ht]
      constructor <;> decide
    · rw [if_neg ht]
      cases hy : slugStripped title with
      | nil =>
        exfalso
        apply ht
        rw [hy]
        rfl
      | cons c y' =>
        have hchead : isPySpace c = false := stripL_head (show (stripL (slugFiltered title)).head? = some c from by rw [← slugStripped, hy]; rfl)
        have hcdash : c ≠ '-' := by
          intro hcd
          exact hh (by rw [hy, hcd]; rfl)
        have hcrun : isRunChar c = false := by
          cases hr : isRunChar c with
          | false => rfl
          | true =>
            exfalso
            rcases (isRunChar_iff c).1 hr with h | h
            · rw [hchead] at h; exact Bool.false_ne_true h
            · exact hcdash (hyphen_of_isRunChar_toNat h)
        obtain ⟨d, hd⟩ : ∃ d, (slugStripped title).getLast? = some d := by
          rw [hy]
          exact ⟨y'.getLast?.getD c, List.getLast?_cons⟩
        have hdlast : isPySpace d = false := stripL_getLast (show (stripL (slugFiltered title)).getLast? = some d from hd)
        have hddash : d ≠ '-' := fun hdd => hl (hdd ▸ hd)
        have hdrun : isRunChar d = false := by
          cases hr : isRunChar d with
          | false => rfl
          | true =>
            exfalso
            rcases (isRunChar_iff d).1 hr with h | h
            · rw [hdlast] at h; exact Bool.false_ne_true h
            · exact hddash (hyphen_of_isRunChar_toNat h)
        constructor
        · show (collapseRuns false (lowerL (c :: y'))).head? ≠ some '-'
          rw [show lowerL (c :: y') = Char.toLower c :: lowerL y' from rfl,
            collapseRuns_cons_of_not_run (by rw [isRunChar_toLower, hcrun])]
          intro hcontra
          have hlc : Char.toLower c = '-' := by simpa using hcontra
          have hr45 : (Char.toLower c).toNat = 45 := by rw [hlc]; decide
          have hrun : isRunChar (Char.toLower c) = true := (isRunChar_iff _).2 (Or.inr hr45)
          rw [isRunChar_toLower, hcrun] at hrun
          exact Bool.false_ne_true hrun
        · show (collapseRuns false (lowerL (c :: y'))).getLast? ≠ some '-'
          have hd' : (c :: y').getLast? = some d := by rw [← hy]; exact hd
          have hlowlast : (lowerL (c :: y')).getLast? = some (Char.toLower d) := by
            rw [lowerL, List.getLast?_map, hd']
            rfl
          have hxr : isRunChar (Char.toLower d) = false := by
            rw [isRunChar_toLower, hdrun]
          rw [collapseRuns_getLast hxr (lowerL (c :: y')) false hlowlast]
          intro hcontra
          have hld : Char.toLower d = '-' := by simpa using hcontra
          have hr45 : (Char.toLower d).toNat = 45 := by rw [hld]; decide
          have hrun : isRunChar (Char.toLower d) = true := (isRunChar_iff _).2 (Or.inr hr45)
          rw [isRunChar_toLower, hdrun] at hrun
          exact Bool.false_ne_true hrun

/-- Witness for C3's amended theorem at a concrete title. -/
theorem C3_witness :
    (slugify "Hello World").toList.head? ≠ some '-' ∧
      (slugify "Hello World").toList.getLast? ≠ some '-' :=
  (C3_no_edge_hyphen_unless_stripped_text_has_one "Hello World").2 (by decide) (by decide)

/-! ### Tag normalization -/

theorem lowerL_lowerL (l : List Char) : lowerL (lowerL l) = lowerL l := by
  show List.map Char.toLower (List.map Char.toLower l) = List.map Char.toLower l
  rw [List.map_map]
  exact List.map_congr_left (fun a _ => toLower_toLower a)

theorem stripL_lowerL (x : List Char) : stripL (lowerL (stripL x)) = lowerL (stripL x) := by
  apply stripL_eq_self
  · intro c hc
    rw [lowerL, List.head?_map] at hc
    cases hE : (stripL x).head? with
    | none => rw [hE] at hc; simp at hc
    | some c₀ =>
      rw [hE] at hc
      have hcc : Char.toLower c₀ = c := by simpa using hc
      rw [← hcc, isPySpace_toLower]
      exact stripL_head hE
  · intro c hc
    rw [lowerL, List.getLast?_map] at hc
    cases hE : (stripL x).getLast? with
    | none => rw [hE] at hc; simp at hc
    | some c₀ =>
      rw [hE] at hc
      have hcc : Char.toLower c₀ = c := by simpa using hc
      rw [← hcc, isPySpace_toLower]
      exact stripL_getLast hE

theorem splitOnComma_ne_nil (l : List Char) : splitOnComma l ≠ [] := by
  cases l with
  | nil => simp [splitOnComma]
  | cons c cs =>
    rw [splitOnComma]
    by_cases hc : c = ','
    · simp [hc]
    · rw [if_neg hc]
      cases splitOnComma cs <;> simp

theorem mem_splitOnComma_no_comma :
    ∀ (l : List Char) (p : List Char), p ∈ splitOnComma l → ',' ∉ p := by
  intro l
  induction l with
  | nil =>
    intro p hp
    rw [splitOnComma] at hp
    have : p = [] := by simpa using hp
    simp [this]
  | cons c cs ih =>
    intro p hp
    rw [splitOnComma] at hp
    by_cases hc : c = ','
    · rw [if_pos hc] at hp
      rcases List.mem_cons.1 hp with h | h
      · simp [h]
      · exact ih p h
    · rw [if_neg hc] at hp
      cases hE : splitOnComma cs with
      | nil => exact absurd hE (splitOnComma_ne_nil cs)
      | cons q qs =>
        rw [hE] at hp
        rcases List.mem_cons.1 hp with h | h
        · subst h
          intro hmem
          rcases List.mem_cons.1 hmem with h' | h'
          · exact hc h'.symm
          · exact ih q (hE ▸ List.mem_cons_self _ _) h'
        · exact ih p (hE ▸ List.mem_cons_of_mem _ h)

theorem splitOnComma_cons_of_ne {c : Char} (hc : ¬c = ',') {l : List Char}
    {h : List Char} {t : List (List Char)} (hs : splitOnComma l = h :: t) :
    splitOnComma (c :: l) = (c :: h) :: t := by
  rw [splitOnComma, if_neg hc, hs]

theorem splitOnComma_append {p : List Char} (hp : ',' ∉ p) (r : List Char) :
    splitOnComma (p ++ ',' :: r) = p :: splitOnComma r := by
  induction p with
  | nil =>
    rw [List.nil_append, splitOnComma, if_pos rfl]
  | cons c p' ih =>
    have hc : ¬c = ',' := fun h => hp (h ▸ List.mem_cons_self _ _)
    have hp' : ',' ∉ p' := fun h => hp (List.mem_cons_of_mem _ h)
    rw [List.cons_append]
    exact splitOnComma_cons_of_ne hc (ih hp')

theorem splitOnComma_id {p : List Char} (hp : ',' ∉ p) : splitOnComma p = [p] := by
  induction p with
  | nil => rfl
  | cons c p' ih =>
    have hc : ¬c = ',' := fun h => hp (h ▸ List.mem_cons_self _ _)
    have hp' : ',' ∉ p' := fun h => hp (List.mem_cons_of_mem _ h)
    exact splitOnComma_cons_of_ne hc (ih hp')

theorem joinCS_ne_nil {p : List Char} (hp : p ≠ []) (ps : List (List Char)) :
    joinCS (p :: ps) ≠ [] := by
  cases ps with
  | nil => exact hp
  | cons q qs =>
    rw [joinCS]
    intro h
    exact hp (List.append_eq_nil.1 h).1

theorem splitOnComma_joinCS :
    ∀ (ps : List (List Char)) (p : List Char), ',' ∉ p → (∀ q ∈ ps, ',' ∉ q) →
      splitOnComma (joinCS (p :: ps)) = p :: ps.map (fun q => ' ' :: q) := by
  intro ps
  induction ps with
  | nil =>
    intro p hp _
    rw [joinCS, splitOnComma_id hp]
    rfl
  | cons q qs ih =>
    intro p hp hqs
    rw [joinCS, splitOnComma_append hp]
    have hq : ',' ∉ q := hqs q (List.mem_cons_self _ _)
    have hqs' : ∀ x ∈ qs, ',' ∉ x := fun x hx => hqs x (List.mem_cons_of_mem _ hx)
    have hrec := ih q hq hqs'
    rw [splitOnComma_cons_of_ne (by decide) hrec]
    rfl

theorem procPiece_self {p : List Char} (hstrip : stripL p = p) (hlow : lowerL p = p) :
    procPiece p = p := by
  rw [procPiece, hstrip, hlow]

theorem procPiece_space_cons {q : List Char} (hstrip : stripL q = q) (hlow : lowerL q = q) :
    procPiece (' ' :: q) = q := by
  rw [procPiece, stripL_cons_space (by decide) q, hstrip, hlow]

theorem mem_foldl_addPiece :
    ∀ (xs : List (List Char)) (acc : List (List Char)) (r : List Char),
      r ∈ xs.foldl addPiece acc → r ∈ acc ∨ r ∈ xs := by
  intro xs
  induction xs with
  | nil => intro acc r h; exact Or.inl h
  | cons x xs ih =>
    intro acc r h
    rw [List.foldl_cons] at h
    rcases ih _ r h with h' | h'
    · rw [addPiece] at h'
      split at h'
      · exact Or.inl h'
      · rcases List.mem_append.1 h' with h'' | h''
        · exact Or.inl h''
        · have hrx : r = x := by simpa using h''
          exact Or.inr (hrx ▸ List.mem_cons_self _ _)
    · exact Or.inr (List.mem_cons_of_mem _ h')

theorem ne_nil_foldl_addPiece :
    ∀ (xs : List (List Char)) (acc : List (List Char)),
      (∀ r ∈ acc, r ≠ []) → ∀ r ∈ xs.foldl addPiece acc, r ≠ [] := by
  intro xs
  induction xs with
  | nil => intro acc hacc r hr; exact hacc r hr
  | cons x xs ih =>
    intro acc hacc r hr
    rw [List.foldl_cons] at hr
    refine ih _ ?_ r hr
    intro y hy
    rw [addPiece] at hy
    split at hy
    · exact hacc y hy
    · rcases List.mem_append.1 hy with h | h
      · exact hacc y h
      · have hyx : y = x := by simpa using h
        rename_i hcond
        rw [Bool.or_eq_true, not_or] at hcond
        intro hnil
        exact hcond.1 (by simp [hyx ▸ hnil])

theorem nodup_foldl_addPiece :
    ∀ (xs : List (List Char)) (acc : List (List Char)),
      acc.Nodup → (xs.foldl addPiece acc).Nodup := by
  intro xs
  induction xs with
  | nil => intro acc h; exact h
  | cons x xs ih =>
    intro acc hacc
    rw [List.foldl_cons]
    refine ih _ ?_
    rw [addPiece]
    split
    · exact hacc
    · rename_i hcond
      rw [Bool.or_eq_true, not_or] at hcond
      rw [List.nodup_append]
      refine ⟨hacc, List.nodup_singleton x, ?_⟩
      intro y hy hyx
      have : y = x := by simpa using hyx
      subst this
      exact hcond.2 (by simpa [List.elem_iff] using hy)

theorem foldl_addPiece_id :
    ∀ (xs : List (List Char)) (acc : List (List Char)),
      (acc ++ xs).Nodup → (∀ x ∈ xs, x ≠ []) → xs.foldl addPiece acc = acc ++ xs := by
  intro xs
  induction xs with
  | nil => intro acc _ _; simp
  | cons x xs ih =>
    intro acc hnd hne
    have hxne : x ≠ [] := hne x (List.mem_cons_self _ _)
    have hxacc : x ∉ acc := by
      rw [List.nodup_append] at hnd
      exact fun hmem => hnd.2.2 hmem (List.mem_cons_self _ _)
    have hstep : addPiece acc x = acc ++ [x] := by
      rw [addPiece, if_neg]
      rw [Bool.or_eq_true, not_or]
      constructor
      · simpa using hxne
      · simpa [List.elem_iff] using hxacc
    rw [List.foldl_cons, hstep, ih (acc ++ [x]) (by simpa using hnd)
      (fun y hy => hne y (List.mem_cons_of_mem _ hy))]
    simp

/-- C10.  `normalize_tags` is idempotent: normalizing an already-normalized
tag string returns it unchanged, for every input string. -/
theorem C10_normalize_tags_idempotent (s : String) :
    normalize_tags (normalize_tags s) = normalize_tags s := by
  by_cases hs : s = ""
  · subst hs
    rfl
  · have hinner : normalize_tags s =
        String.mk (joinCS (((splitOnComma s.toList).map procPiece).foldl addPiece [])) := by
      rw [normalize_tags, if_neg hs]
    rw [hinner]
    have hmem : ∀ r ∈ ((splitOnComma s.toList).map procPiece).foldl addPiece [],
        stripL r = r ∧ lowerL r = r ∧ ',' ∉ r := by
      intro r hr
      rcases mem_foldl_addPiece _ _ _ hr with h | h
      · simp at h
      · obtain ⟨x, hx, hpx⟩ := List.mem_map.1 h
        subst hpx
        refine ⟨stripL_lowerL x, lowerL_lowerL (stripL x), ?_⟩
        intro hcomma
        rw [procPiece, lowerL] at hcomma
        obtain ⟨c, hc, hlc⟩ := List.mem_map.1 hcomma
        have hcc : c = ',' := toLower_eq_comma hlc
        subst hcc
        exact mem_splitOnComma_no_comma s.toList x hx (stripL_subset x hc)
    have hne : ∀ r ∈ ((splitOnComma s.toList).map procPiece).foldl addPiece [], r ≠ [] :=
      ne_nil_foldl_addPiece _ [] (by simp)
    have hnd : (((splitOnComma s.toList).map procPiece).foldl addPiece []).Nodup :=
      nodup_foldl_addPiece _ [] List.nodup_nil
    cases hRs : ((splitOnComma s.toList).map procPiece).foldl addPiece [] with
    | nil => rfl
    | cons p ps =>
      rw [hRs] at hmem hne hnd
      have hp := hmem p (List.mem_cons_self _ _)
      have hpne := hne p (List.mem_cons_self _ _)
      have hqfacts : ∀ q ∈ ps, stripL q = q ∧ lowerL q = q ∧ ',' ∉ q :=
        fun q hq => hmem q (List.mem_cons_of_mem _ hq)
      have hjoin_ne : joinCS (p :: ps) ≠ [] := joinCS_ne_nil hpne ps
      have hSne : ¬(String.mk (joinCS (p :: ps)) = "") := by
        intro h
        exact hjoin_ne (congrArg String.data h)
      rw [normalize_tags, if_neg hSne]
      have hsplit := splitOnComma_joinCS ps p hp.2.2 (fun q hq => (hqfacts q hq).2.2)
      rw [show (String.mk (joinCS (p :: ps))).toList = joinCS (p :: ps) from rfl, hsplit]
      have hmap : (p :: ps.map (fun q => ' ' :: q)).map procPiece = p :: ps := by
        rw [List.map_cons, procPiece_self hp.1 hp.2.1, List.map_map]
        congr 1
        conv_rhs => rw [← List.map_id ps]
        exact List.map_congr_left (fun q hq =>
          procPiece_space_cons (hqfacts q hq).1 (hqfacts q hq).2.1)
      rw [hmap]
      rw [foldl_addPiece_id (p :: ps) [] (by simpa using hnd) hne]
      rfl

/-! ### Highlighting -/

theorem not_prefix_markO {c : Char} (hc : c ≠ '<') (cs : List Char) :
    markO.isPrefixOf (c :: cs) = false := by
  rw [markO]
  simp [List.isPrefixOf]
  intro h
  exact absurd h.symm hc

theorem not_prefix_markC {c : Char} (hc : c ≠ '<') (cs : List Char) :
    markC.isPrefixOf (c :: cs) = false := by
  rw [markC]
  simp [List.isPrefixOf]
  intro h
  exact absurd h.symm hc

theorem markO_not_prefix_markC_append (t : List Char) :
    markO.isPrefixOf (markC ++ t) = false := rfl

theorem markO_prefix (t : List Char) : markO.isPrefixOf (markO ++ t) = true :=
  List.isPrefixOf_iff_prefix.2 (List.prefix_append markO t)

theorem markC_prefix (t : List Char) : markC.isPrefixOf (markC ++ t) = true :=
  List.isPrefixOf_iff_prefix.2 (List.prefix_append markC t)

theorem pyEscapeChar_no_lt (c : Char) : '<' ∉ pyEscapeChar c := by
  rw [pyEscapeChar]
  split_ifs with h1 h2 h3 h4 h5
  · decide
  · decide
  · decide
  · decide
  · decide
  · intro hmem
    have h : '<' = c := by simpa using hmem
    exact h2 h.symm

theorem pyEscape_no_lt (s : String) : '<' ∉ (pyEscape s).toList := by
  intro h
  rw [show (pyEscape s).toList = (s.toList.map pyEscapeChar).flatten from rfl] at h
  obtain ⟨l, hl, hcl⟩ := List.mem_flatten.1 h
  obtain ⟨c, _, hcEq⟩ := List.mem_map.1 hl
  exact pyEscapeChar_no_lt c (hcEq ▸ hcl)

theorem removeMarks_cons_of_ne {c : Char} (hc : c ≠ '<') (cs : List Char) :
    removeMarks (c :: cs) = c :: removeMarks cs := by
  rw [removeMarks, if_neg (by simp [not_prefix_markO hc cs]),
    if_neg (by simp [not_prefix_markC hc cs])]

theorem removeMarks_no_lt {s : List Char} (hs : '<' ∉ s) : removeMarks s = s := by
  induction s with
  | nil => rw [removeMarks]
  | cons c cs ih =>
    have hc : c ≠ '<' := fun h => hs (h ▸ List.mem_cons_self _ _)
    rw [removeMarks_cons_of_ne hc, ih (fun h => hs (List.mem_cons_of_mem _ h))]

theorem removeMarks_append_no_lt {m : List Char} (hm : '<' ∉ m) (t : List Char) :
    removeMarks (m ++ t) = m ++ removeMarks t := by
  induction m with
  | nil => rfl
  | cons c m' ih =>
    have hc : c ≠ '<' := fun h => hm (h ▸ List.mem_cons_self _ _)
    rw [List.cons_append, removeMarks_cons_of_ne hc,
      ih (fun h => hm (List.mem_cons_of_mem _ h))]
    rfl

theorem removeMarks_markO (t : List Char) : removeMarks (markO ++ t) = removeMarks t := by
  show removeMarks ('<' :: (['m', 'a', 'r', 'k', '>'] ++ t)) = removeMarks t
  rw [removeMarks]
  have hcond : markO.isPrefixOf ('<' :: (['m', 'a', 'r', 'k', '>'] ++ t)) = true :=
    markO_prefix t
  rw [if_pos hcond]
  rfl

theorem removeMarks_markC (t : List Char) : removeMarks (markC ++ t) = removeMarks t := by
  show removeMarks ('<' :: ('/' :: (['m', 'a', 'r', 'k', '>'] ++ t))) = removeMarks t
  rw [removeMarks]
  have hcond1 : markO.isPrefixOf ('<' :: ('/' :: (['m', 'a', 'r', 'k', '>'] ++ t))) = false :=
    markO_not_prefix_markC_append t
  rw [if_neg (by rw [hcond1]; exact Bool.false_ne_true)]
  have hcond2 : markC.isPrefixOf ('<' :: ('/' :: (['m', 'a', 'r', 'k', '>'] ++ t))) = true :=
    markC_prefix t
  rw [if_pos hcond2]
  rfl

theorem eqCIPrefix_length {w s : List Char} (h : eqCIPrefix w s = true) :
    w.length ≤ s.length := by
  rw [eqCIPrefix, Bool.and_eq_true] at h
  simpa using h.1

theorem matchAt_some {ws : List (List Char)} {s m : List Char} :
    matchAt ws s = some m → ∃ w ∈ ws, m = s.take w.length ∧ eqCIPrefix w s = true := by
  induction ws with
  | nil => intro h; simp [matchAt] at h
  | cons w ws ih =>
    intro h
    rw [matchAt, List.findSome?_cons] at h
    by_cases hw : eqCIPrefix w s = true
    · rw [if_pos hw] at h
      have h' : some (s.take w.length) = some m := h
      exact ⟨w, List.mem_cons_self _ _, (Option.some.inj h').symm, hw⟩
    · rw [if_neg hw] at h
      obtain ⟨w', hw', hm, hci⟩ := ih h
      exact ⟨w', List.mem_cons_of_mem _ hw', hm, hci⟩

theorem highlightLoop_removeMarks {ws : List (List Char)} (hws : ∀ w ∈ ws, w ≠ []) :
    ∀ (fuel : Nat) (s : List Char), '<' ∉ s →
      removeMarks (highlightLoop ws fuel s) = s := by
  intro fuel
  induction fuel with
  | zero =>
    intro s hs
    cases s with
    | nil => simp [highlightLoop, removeMarks]
    | cons c cs =>
      show removeMarks (c :: cs) = c :: cs
      exact removeMarks_no_lt hs
  | succ fuel ih =>
    intro s hs
    cases s with
    | nil => simp [highlightLoop, removeMarks]
    | cons c cs =>
      cases hm : matchAt ws (c :: cs) with
      | some m =>
        obtain ⟨w, hw, hmw, hci⟩ := matchAt_some hm
        have hwne : w ≠ [] := hws w hw
        have hwlen : w.length ≤ (c :: cs).length := eqCIPrefix_length hci
        have hmlen : m.length = w.length := by
          rw [hmw, List.length_take]
          omega
        have hmtake : m = (c :: cs).take m.length := by rw [hmlen]; exact hmw
        have hmsub : '<' ∉ m := fun hin => hs (hmw ▸ hin |> List.take_subset _ _)
        have hdrop : '<' ∉ (c :: cs).drop m.length :=
          fun hin => hs (List.drop_subset _ _ hin)
        have hstep : highlightLoop ws (fuel + 1) (c :: cs) =
            markO ++ m ++ markC ++ highlightLoop ws fuel ((c :: cs).drop m.length) := by
          rw [highlightLoop, hm]
        rw [hstep]
        rw [List.append_assoc, List.append_assoc, removeMarks_markO,
          removeMarks_append_no_lt hmsub, removeMarks_markC, ih _ hdrop]
        conv_rhs => rw [← List.take_append_drop m.length (c :: cs)]
        rw [← hmtake]
      | none =>
        have hc : c ≠ '<' := fun h => hs (h ▸ List.mem_cons_self _ _)
        have hstep : highlightLoop ws (fuel + 1) (c :: cs) =
            c :: highlightLoop ws fuel cs := by
          rw [highlightLoop, hm]
        rw [hstep, removeMarks_cons_of_ne hc,
          ih _ (fun h => hs (List.mem_cons_of_mem _ h))]

/-- C7.  `highlight` escapes the source text before matching: deleting every
inserted `<mark>`/`</mark>` marker from its output yields exactly the escaped
source text, and the escaped source text contains no `<`, so every piece of
markup in the output is either produced by the escaping or is one of the
inserted markers — none can originate from the user-supplied source text. -/
theorem C7_highlight_markup_only_from_escaping_or_markers (text query : String) :
    removeMarks (highlight text query).toList = (pyEscape text).toList ∧
      '<' ∉ (pyEscape text).toList := by
  refine ⟨?_, pyEscape_no_lt text⟩
  rw [highlight]
  by_cases h1 : (text = "" || query = "") = true
  · rw [if_pos h1]
    exact removeMarks_no_lt (pyEscape_no_lt text)
  · rw [if_neg h1]
    by_cases h2 : wordsOf query = []
    · rw [if_pos h2]
      exact removeMarks_no_lt (pyEscape_no_lt text)
    · rw [if_neg h2]
      have hws : ∀ w ∈ wordsOf query, w ≠ [] := by
        intro w hw
        rw [wordsOf] at hw
        simpa using (List.mem_filter.1 hw).2
      exact highlightLoop_removeMarks hws _ _ (pyEscape_no_lt text)

/-! ### Listing and pagination -/

theorem insertDesc_perm (a : Article) (l : List Article) :
    (insertDesc a l).Perm (a :: l) := by
  induction l with
  | nil => exact List.Perm.refl _
  | cons b bs ih =>
    rw [insertDesc]
    by_cases h : b.id ≤ a.id
    · rw [if_pos h]
    · rw [if_neg h]
      exact (List.Perm.cons b ih).trans (List.Perm.swap a b bs)

theorem sortDesc_perm (l : List Article) : (sortDesc l).Perm l := by
  induction l with
  | nil => exact List.Perm.refl _
  | cons a as ih =>
    rw [sortDesc]
    exact (insertDesc_perm a _).trans (List.Perm.cons a ih)

theorem mem_insertDesc {x a : Article} {l : List Article} :
    x ∈ insertDesc a l ↔ x = a ∨ x ∈ l := by
  rw [(insertDesc_perm a l).mem_iff]
  simp

theorem insertDesc_sorted {a : Article} {l : List Article}
    (h : l.Pairwise (fun x y => y.id ≤ x.id)) :
    (insertDesc a l).Pairwise (fun x y => y.id ≤ x.id) := by
  induction l with
  | nil => simp [insertDesc]
  | cons b bs ih =>
    rw [insertDesc]
    rw [List.pairwise_cons] at h
    by_cases hb : b.id ≤ a.id
    · rw [if_pos hb, List.pairwise_cons]
      constructor
      · intro y hy
        rcases List.mem_cons.1 hy with rfl | hy
        · exact hb
        · exact le_trans (h.1 y hy) hb
      · exact List.pairwise_cons.2 h
    · rw [if_neg hb, List.pairwise_cons]
      constructor
      · intro y hy
        rcases mem_insertDesc.1 hy with rfl | hy
        · omega
        · exact h.1 y hy
      · exact ih h.2

theorem sortDesc_sorted (l : List Article) :
    (sortDesc l).Pairwise (fun x y => y.id ≤ x.id) := by
  induction l with
  | nil => simp [sortDesc]
  | cons a as ih =>
    rw [sortDesc]
    exact insertDesc_sorted ih

/-- C8.  Every listing endpoint returns the slice
`[(page-1)*per_page, page*per_page)` of the matching rows in strictly
descending id order, with `total` the number of matching rows,
`has_prev = (page > 1)` and `has_next = (page*per_page < total)`; with 23
matching articles and `per_page = 10`, page 1 yields 10 items
(`has_prev = False`, `has_next = True`) and page 3 yields 3 items
(`has_prev = True`, `has_next = False`). -/
theorem C8_pagination_contract :
    (∀ (store : List Article) (f : Filt) (page pp : Nat), 1 ≤ page → 0 < pp →
      (store.map Article.id).Nodup →
      (list_articles store f page pp).total = (store.filter (matchesFilter f)).length ∧
        (list_articles store f page pp).hasPrev = decide (1 < page) ∧
        (list_articles store f page pp).hasNext
          = decide (page * pp < (list_articles store f page pp).total) ∧
        (∀ i, i < pp →
          (list_articles store f page pp).items[i]? =
            (sortDesc (store.filter (matchesFilter f)))[(page - 1) * pp + i]?) ∧
        List.Chain' (fun x y => y.id < x.id) (list_articles store f page pp).items) ∧
      ((list_articles store23 Filt.all 1 10).items.length = 10 ∧
        (list_articles store23 Filt.all 1 10).hasPrev = false ∧
        (list_articles store23 Filt.all 1 10).hasNext = true ∧
        (list_articles store23 Filt.all 1 10).total = 23 ∧
        (list_articles store23 Filt.all 3 10).items.length = 3 ∧
        (list_articles store23 Filt.all 3 10).hasPrev = true ∧
        (list_articles store23 Filt.all 3 10).hasNext = false) := by
  constructor
  · intro store f page pp _ _ hnd
    refine ⟨(sortDesc_perm _).length_eq, rfl, rfl, ?_, ?_⟩
    · intro i hi
      show ((sortDesc (store.filter (matchesFilter f))).drop
          ((page - 1) * pp) |>.take pp)[i]? = _
      rw [List.getElem?_take, if_pos hi, List.getElem?_drop]
    · have hsub : ((store.filter (matchesFilter f)).map Article.id).Sublist
          (store.map Article.id) :=
        (List.filter_sublist store).map Article.id
      have hndf : ((store.filter (matchesFilter f)).map Article.id).Nodup :=
        hnd.sublist hsub
      have hndq : ((sortDesc (store.filter (matchesFilter f))).map Article.id).Nodup :=
        (((sortDesc_perm (store.filter (matchesFilter f))).map Article.id).nodup_iff).2 hndf
      have hpne : (sortDesc (store.filter (matchesFilter f))).Pairwise
          (fun x y => x.id ≠ y.id) := by
        rw [List.Nodup, List.pairwise_map] at hndq
        exact hndq
      have hlt : (sortDesc (store.filter (matchesFilter f))).Pairwise
          (fun x y => y.id < x.id) := by
        have := (sortDesc_sorted (store.filter (matchesFilter f))).and hpne
        exact this.imp (fun h => by omega)
      have hitems : ((list_articles store f page pp).items).Sublist
          (sortDesc (store.filter (matchesFilter f))) :=
        List.Sublist.trans (List.take_sublist _ _) (List.drop_sublist _ _)
      exact (hlt.sublist hitems).chain'
  · refine ⟨?_, ?_, ?_, ?_, ?_, ?_, ?_⟩ <;> decide

/-! ### LIKE pattern semantics -/

theorem likeMatchesF_fuel :
    ∀ (f1 f2 : Nat) (p s : List Char),
      p.length + s.length ≤ f1 → p.length + s.length ≤ f2 →
      likeMatchesF f1 p s = likeMatchesF f2 p s := by
  intro f1
  induction f1 with
  | zero =>
    intro f2 p s h1 _
    have hp : p = [] := List.length_eq_zero.1 (by omega)
    have hs : s = [] := List.length_eq_zero.1 (by omega)
    subst hp
    subst hs
    cases f2 with
    | zero => rfl
    | succ f2 => rfl
  | succ f1 ih =>
    intro f2 p s h1 h2
    cases p with
    | nil =>
      cases f2 with
      | zero =>
        have hs : s = [] := by simpa using h2
        subst hs
        rfl
      | succ f2 => rfl
    | cons q ps =>
      cases f2 with
      | zero =>
        exfalso
        simp at h2
      | succ f2 =>
        by_cases hq : q = '%'
        · subst hq
          cases s with
          | nil =>
            have e1 := ih f2 ps [] (by simp at h1 ⊢; omega) (by simp at h2 ⊢; omega)
            simp [likeMatchesF, e1]
          | cons c s' =>
            have e1 := ih f2 ps (c :: s')
              (by simp at h1 ⊢; omega) (by simp at h2 ⊢; omega)
            have e2 := ih f2 ('%' :: ps) s'
              (by simp at h1 ⊢; omega) (by simp at h2 ⊢; omega)
            simp [likeMatchesF, e1, e2]
        · cases s with
          | nil => simp [likeMatchesF, hq]
          | cons c s' =>
            have e1 := ih f2 ps s' (by simp at h1 ⊢; omega) (by simp at h2 ⊢; omega)
            simp [likeMatchesF, hq, e1]

theorem likeMatches_eq_any_fuel (fuel : Nat) (p s : List Char)
    (h : p.length + s.length ≤ fuel) : likeMatchesF fuel p s = likeMatches p s :=
  likeMatchesF_fuel fuel (p.length + s.length) p s h (le_refl _)

theorem likeMatches_nil_eq (s : List Char) : likeMatches [] s = s.isEmpty := by
  rw [likeMatches]
  cases s with
  | nil => rfl
  | cons c s' => rfl

theorem likeMatches_percent_eq (ps s : List Char) :
    likeMatches ('%' :: ps) s =
      (likeMatches ps s ||
        (match s with
         | [] => false
         | _ :: s' => likeMatches ('%' :: ps) s')) := by
  cases s with
  | nil =>
    rw [likeMatches]
    have hlen : ('%' :: ps).length + List.length ([] : List Char) = ps.length + 1 := by
      simp
    rw [hlen, likeMatchesF, if_pos rfl]
    show (likeMatchesF ps.length ps [] || false) = (likeMatches ps [] || false)
    rw [likeMatches_eq_any_fuel _ _ _ (by simp)]
  | cons c s' =>
    rw [likeMatches]
    have hlen : ('%' :: ps).length + (c :: s').length = (ps.length + (c :: s').length) + 1 := by
      simp [List.length_cons]
      omega
    rw [hlen, likeMatchesF, if_pos rfl]
    show (likeMatchesF (ps.length + (c :: s').length) ps (c :: s') ||
        likeMatchesF (ps.length + (c :: s').length) ('%' :: ps) s') =
      (likeMatches ps (c :: s') || likeMatches ('%' :: ps) s')
    rw [likeMatches_eq_any_fuel _ _ _ (le_refl _),
      likeMatches_eq_any_fuel _ _ _ (by simp [List.length_cons]; omega)]

theorem likeMatches_lit_nil {p : Char} (hp : ¬p = '%') (ps : List Char) :
    likeMatches (p :: ps) [] = false := by
  rw [likeMatches]
  have hlen : (p :: ps).length + List.length ([] : List Char) = ps.length + 1 := by simp
  rw [hlen, likeMatchesF, if_neg hp]

theorem likeMatches_lit_cons {p : Char} (hp : ¬p = '%') (ps : List Char) (c : Char)
    (s' : List Char) :
    likeMatches (p :: ps) (c :: s') =
      ((decide (p = '_') || eqCI p c) && likeMatches ps s') := by
  rw [likeMatches]
  have hlen : (p :: ps).length + (c :: s').length = (ps.length + s'.length + 1) + 1 := by
    simp [List.length_cons]
    omega
  rw [hlen, likeMatchesF, if_neg hp]
  show ((decide (p = '_') || eqCI p c) && likeMatchesF (ps.length + s'.length + 1) ps s') = _
  congr 1
  exact likeMatches_eq_any_fuel _ _ _ (by omega)

theorem percent_matches_all (s : List Char) : likeMatches ['%'] s = true := by
  induction s with
  | nil => rw [likeMatches_percent_eq, likeMatches_nil_eq]; rfl
  | cons c s' ih =>
    rw [likeMatches_percent_eq]
    show (likeMatches [] (c :: s') || likeMatches ['%'] s') = true
    rw [ih]
    simp

theorem likeMatches_percent_iff (ps : List Char) :
    ∀ s, likeMatches ('%' :: ps) s = true ↔
      ∃ s', s' <:+ s ∧ likeMatches ps s' = true := by
  intro s
  induction s with
  | nil =>
    rw [likeMatches_percent_eq]
    constructor
    · intro h
      have h' : likeMatches ps [] = true := by simpa using h
      exact ⟨[], List.suffix_rfl, h'⟩
    · rintro ⟨s', hs', h⟩
      have hnil : s' = [] := List.suffix_nil.1 hs'
      subst hnil
      simp [h]
  | cons c s' ih =>
    rw [likeMatches_percent_eq]
    show (likeMatches ps (c :: s') || likeMatches ('%' :: ps) s') = true ↔ _
    rw [Bool.or_eq_true]
    constructor
    · intro h
      rcases h with h | h
      · exact ⟨c :: s', List.suffix_rfl, h⟩
      · obtain ⟨t, ht, hm⟩ := ih.1 h
        exact ⟨t, ht.trans (List.suffix_cons c s'), hm⟩
    · rintro ⟨t, ht, hm⟩
      rcases List.suffix_cons_iff.1 ht with rfl | ht'
      · exact Or.inl hm
      · exact Or.inr (ih.2 ⟨t, ht', hm⟩)

theorem likeMatches_lit_iff :
    ∀ (lit : List Char), '%' ∉ lit → '_' ∉ lit →
      ∀ s, (likeMatches (lit ++ ['%']) s = true ↔
        (lit.map Char.toLower) <+: (s.map Char.toLower)) := by
  intro lit
  induction lit with
  | nil =>
    intro _ _ s
    rw [List.nil_append]
    simp [percent_matches_all s]
  | cons p lit ih =>
    intro hpc hus s
    have hp : ¬p = '%' := fun h => hpc (h ▸ List.mem_cons_self _ _)
    have hpu : ¬p = '_' := fun h => hus (h ▸ List.mem_cons_self _ _)
    have hlitc : '%' ∉ lit := fun h => hpc (List.mem_cons_of_mem _ h)
    have hlitu : '_' ∉ lit := fun h => hus (List.mem_cons_of_mem _ h)
    cases s with
    | nil =>
      rw [show (p :: lit) ++ ['%'] = p :: (lit ++ ['%']) from rfl, likeMatches_lit_nil hp]
      simp
    | cons c s' =>
      rw [show (p :: lit) ++ ['%'] = p :: (lit ++ ['%']) from rfl,
        likeMatches_lit_cons hp _ c s',
        show (p :: lit).map Char.toLower = Char.toLower p :: lit.map Char.toLower from rfl,
        show (c :: s').map Char.toLower = Char.toLower c :: s'.map Char.toLower from rfl,
        List.cons_prefix_cons]
      rw [Bool.and_eq_true]
      simp only [hpu, decide_eq_true_eq, Bool.or_eq_true, decide_eq_false_iff_not,
        eqCI, beq_iff_eq]
      constructor
      · rintro ⟨h1, h2⟩
        rcases h1 with h1 | h1
        · exact h1.elim
        · exact ⟨h1, (ih hlitc hlitu s').1 h2⟩
      · rintro ⟨h1, h2⟩
        exact ⟨Or.inr h1, (ih hlitc hlitu s').2 h2⟩

theorem ilikeContains_infix_iff {pat : String} (hpc : '%' ∉ pat.toList)
    (hpu : '_' ∉ pat.toList) (field : String) :
    ilikeContains field pat = true ↔
      (pat.toList.map Char.toLower) <:+: (field.toList.map Char.toLower) := by
  rw [ilikeContains, likeMatches_percent_iff]
  constructor
  · rintro ⟨s', hs', hm⟩
    have hpre := (likeMatches_lit_iff pat.toList hpc hpu s').1 hm
    exact List.infix_iff_prefix_suffix.2
      ⟨s'.map Char.toLower, hpre, List.IsSuffix.map _ hs'⟩
  · intro hinf
    obtain ⟨t, hpre, hsuf⟩ := List.infix_iff_prefix_suffix.1 hinf
    have hteq := List.suffix_iff_eq_drop.1 hsuf
    refine ⟨field.toList.drop
        ((field.toList.map Char.toLower).length - t.length), List.drop_suffix _ _, ?_⟩
    apply (likeMatches_lit_iff pat.toList hpc hpu _).2
    rw [List.map_drop, ← hteq]
    exact hpre

/-- Witness for C8's general pagination contract at a concrete store. -/
theorem C8_witness :
    (list_articles [articleGo] Filt.all 1 5).total = 1 ∧
      (list_articles [articleGo] Filt.all 1 5).hasPrev = decide (1 < 1) := by
  have h := C8_pagination_contract.1 [articleGo] Filt.all 1 5
    (by decide) (by decide) (by decide)
  refine ⟨?_, h.2.1⟩
  rw [h.1]
  decide

/-- C9 fails as stated: the tag filter interpolates the raw tag into a SQL
LIKE pattern, so LIKE wildcards in the tag are interpreted by the store: the
tag `"%"` matches an article tagged `"go"` although `"go"` does not contain
`"%"` as a substring. -/
theorem C9_counterexample :
    matchesFilter (Filt.tag "%") articleGo = true ∧
      containsCI articleGo.tags "%" = false := by
  constructor
  · decide
  · decide

/-- C9 amended.  For every tag containing no LIKE wildcard (`%` or `_`), the
tag-mode listing's matching rows are exactly the stored articles whose tags
field contains the tag as a case-insensitive substring (wildcards in the tag
are instead interpreted by the store's LIKE operator); in particular `"py"`
matches an article tagged `"python, flask"` but not one tagged `"go"`. -/
theorem C9_tag_mode_substring_semantics :
    (∀ (t : String), '%' ∉ t.toList → '_' ∉ t.toList →
      ∀ (store : List Article) (a : Article),
        (a ∈ sortDesc (store.filter (matchesFilter (Filt.tag t))) ↔
          a ∈ store ∧ containsCI a.tags t = true)) ∧
      matchesFilter (Filt.tag "py") articlePython = true ∧
      matchesFilter (Filt.tag "py") articleGo = false := by
  refine ⟨?_, by decide, by decide⟩
  intro t hpc hpu store a
  rw [(sortDesc_perm _).mem_iff, List.mem_filter]
  constructor
  · rintro ⟨ha, hm⟩
    refine ⟨ha, ?_⟩
    rw [containsCI, decide_eq_true_eq]
    exact (ilikeContains_infix_iff hpc hpu a.tags).1 hm
  · rintro ⟨ha, hc⟩
    refine ⟨ha, ?_⟩
    rw [containsCI, decide_eq_true_eq] at hc
    exact (ilikeContains_infix_iff hpc hpu a.tags).2 hc

/-- Witness for C9's amended theorem at a concrete store and tag. -/
theorem C9_witness :
    articlePython ∈
      sortDesc ([articlePython, articleGo].filter (matchesFilter (Filt.tag "py"))) :=
  (C9_tag_mode_substring_semantics.1 "py" (by decide) (by decide)
    [articlePython, articleGo] articlePython).2 ⟨by decide, by decide⟩

/-! ### Safe rendering -/

theorem bleachClean_openTag {toks : List HtmlTok} {t : String}
    {attrs : List (String × String)}
    (h : HtmlTok.openTag t attrs ∈ bleachClean toks) :
    t ∈ allowedTags ∧ ∀ kv ∈ attrs, kv.1 ∈ allowedAttrs t := by
  rw [bleachClean, List.mem_filterMap] at h
  obtain ⟨tok, _, htok⟩ := h
  cases tok with
  | text s => simp at htok
  | openTag nm as =>
    have htok' : (if nm ∈ allowedTags then
        some (HtmlTok.openTag nm (as.filter (fun kv => kv.1 ∈ allowedAttrs nm)))
      else none) = some (HtmlTok.openTag t attrs) := htok
    by_cases hnm : nm ∈ allowedTags
    · rw [if_pos hnm] at htok'
      simp only [Option.some.injEq, HtmlTok.openTag.injEq] at htok'
      obtain ⟨h1, h2⟩ := htok'
      subst h1
      subst h2
      refine ⟨hnm, ?_⟩
      intro kv hkv
      have := (List.mem_filter.1 hkv).2
      simpa using this
    · rw [if_neg hnm] at htok'
      simp at htok'
  | closeTag nm =>
    have htok' : (if nm ∈ allowedTags then some (HtmlTok.closeTag nm) else none)
        = some (HtmlTok.openTag t attrs) := htok
    by_cases hnm : nm ∈ allowedTags
    · rw [if_pos hnm] at htok'
      simp at htok'
    · rw [if_neg hnm] at htok'
      simp at htok'

/-- C6.  Sanitization keeps only allowlisted tags with per-tag allowlisted
attributes: every open tag surviving the cleaning pass of
`render_markdown_safe` carries an allowlisted name and only attributes
allowed for that name; and on the spec's concrete input the rendered HTML
contains no `<script>` tag while `**hi**` renders as `<strong>hi</strong>`. -/
theorem C6_render_markdown_safe_allowlist :
    (∀ (md : String) (t : String) (attrs : List (String × String)),
      HtmlTok.openTag t attrs ∈ bleachClean (mdRender md) →
      t ∈ allowedTags ∧ ∀ kv ∈ attrs, kv.1 ∈ allowedAttrs t) ∧
      ("<strong>hi</strong>".toList <:+:
        (render_markdown_safe "<script>alert(1)</script>**hi**").toList) ∧
      ¬("<script".toList <:+:
        (render_markdown_safe "<script>alert(1)</script>**hi**").toList) := by
  refine ⟨?_, by decide, by decide⟩
  intro md t attrs h
  exact bleachClean_openTag h

/-- Witness for C6's allowlist guarantee at a concrete rendering. -/
theorem C6_witness : "strong" ∈ allowedTags :=
  (C6_render_markdown_safe_allowlist.1 "**hi**" "strong" [] (by decide)).1
